import Mathlib

/-!
Shallow embedding of the search core of `history-grep` (src/src/main.rs).

Strings are modelled as lists of Unicode scalar values (`List Char`).
Rust's `str::find` / `String::replacen(pat, "", 1)` / slicing are modelled
by `findSub` / `removeFirst` / `List.drop`.  The matcher functions are
stated generically over the element type so that the very same algorithm
can also be run on the UTF-8 byte level (`List Nat`), which is what the
slice-safety claim is about.
-/

/-- Decides whether the list `a` is an initial segment of `k`
(the primitive underlying Rust substring search). -/
def startsWith {α : Type} [DecidableEq α] : List α → List α → Bool
  | [], _ => true
  | _ :: _, [] => false
  | x :: xs, y :: ys => if x = y then startsWith xs ys else false

/-- Model of Rust `key.find(&a)`: index of the leftmost occurrence of `a`
in `key`, or `none`.  On `List Char` the index counts scalar values; on
`List Nat` (UTF-8 bytes) it counts bytes, exactly as in Rust. -/
def findSub {α : Type} [DecidableEq α] : List α → List α → Option Nat
  | [], a => if startsWith a [] then some 0 else none
  | x :: t, a => if startsWith a (x :: t) then some 0 else (findSub t a).map (· + 1)

/-- Model of Rust `key.replacen(&a, "", 1)`: remove the leftmost occurrence
of `a` from `key` (identity when `a` does not occur, which the caller in
`unordered_match` has already excluded). -/
def removeFirst {α : Type} [DecidableEq α] (key a : List α) : List α :=
  match findSub key a with
  | some pos => key.take pos ++ key.drop (pos + a.length)
  | none => key

/-- `ordered_match` from src/src/main.rs lines 235-245: sequentially search
each term starting from the cursor, and on success continue on the slice
`key[pos + a.len()..]`. -/
def ordered_match {α : Type} [DecidableEq α] : List α → List (List α) → Bool
  | _, [] => true
  | key, a :: rest =>
    match findSub key a with
    | some pos => ordered_match (key.drop (pos + a.length)) rest
    | none => false

/-- `unordered_match` from src/src/main.rs lines 248-257: each term must be
found in the working copy, and its first occurrence is then consumed via
`replacen(&a, "", 1)`. -/
def unordered_match {α : Type} [DecidableEq α] : List α → List (List α) → Bool
  | _, [] => true
  | key, a :: rest =>
    match findSub key a with
    | some _ => unordered_match (removeFirst key a) rest
    | none => false

/-- `SeqOccurs key ts` says that the terms `ts` occur in `key` in the given
order, pairwise non-overlapping, each strictly after the end of the previous
one (the specification-level reading of ordered matching). -/
def SeqOccurs {α : Type} : List α → List (List α) → Prop
  | _, [] => True
  | key, t :: ts => ∃ p s, key = p ++ (t ++ s) ∧ SeqOccurs s ts

/-! ### Line index (`History::load_history_map`, src/src/main.rs lines 155-164)

The Rust code builds a `HashMap<String, Vec<u16>>` by iterating the loaded
lines with a `u16` counter incremented before each insertion.  The map is
modelled as an association list with unique keys; the `u16` increment is
modelled as `(index + 1) % 65536` (wrapping semantics of the 16-bit counter). -/

/-- Model of `self.history_map.entry(line).or_insert_with(Vec::new).push(index)`. -/
def pushEntry : List (List Char × List Nat) → List Char → Nat → List (List Char × List Nat)
  | [], key, v => [(key, [v])]
  | (k, vs) :: rest, key, v =>
    if k = key then (k, vs ++ [v]) :: rest else (k, vs) :: pushEntry rest key v

/-- Lookup in the association-list model of the history map. -/
def lookupMap : List (List Char × List Nat) → List Char → Option (List Nat)
  | [], _ => none
  | (k, vs) :: rest, key => if k = key then some vs else lookupMap rest key

/-- The loop of `History::load_history_map`, with the `u16` counter made
explicit (`index` holds the current counter value, wrapping modulo 2^16). -/
def load_history_map_aux : List (List Char) → Nat → List (List Char × List Nat) → List (List Char × List Nat)
  | [], _, m => m
  | l :: rest, index, m =>
    load_history_map_aux rest ((index + 1) % 65536) (pushEntry m l ((index + 1) % 65536))

/-- `History::load_history_map`: build the line index from the loaded lines,
starting the `u16` counter at 0. -/
def load_history_map (lines : List (List Char)) : List (List Char × List Nat) :=
  load_history_map_aux lines 0 []

/-- Specification-side list of wrapped 1-based positions of `key` among
`lines`, starting from counter value `index` (mirrors the `u16` counter). -/
def positionsFromW : List (List Char) → Nat → List Char → List Nat
  | [], _, _ => []
  | l :: rest, index, key =>
    if l = key then ((index + 1) % 65536) :: positionsFromW rest ((index + 1) % 65536) key
    else positionsFromW rest ((index + 1) % 65536) key

/-- Specification-side list of true (unwrapped) 1-based positions of `key`
among `lines`, offset by `index`. -/
def positionsFrom : List (List Char) → Nat → List Char → List Nat
  | [], _, _ => []
  | l :: rest, index, key =>
    if l = key then (index + 1) :: positionsFrom rest (index + 1) key
    else positionsFrom rest (index + 1) key

/-- Decidable check that a list of naturals is strictly increasing
(equivalent to `List.Chain' (· < ·)`, see `strictlyIncreasing_iff`). -/
def strictlyIncreasing : List Nat → Bool
  | [] => true
  | [_] => true
  | a :: b :: l => decide (a < b) && strictlyIncreasing (b :: l)

/-! ### File loading (`History::load_history`, src/src/main.rs lines 122-136)

The I/O outcomes of the external file reader are materialised as data:
`none` for a failed file open, and per line `none` for a line that failed
to decode.  The Rust loop pushes each `Ok` line and skips (logs) each
`Err` line; a failed open leaves `history_list` empty. -/

/-- The per-line loop body of `load_history`: push decoded lines, skip
failed ones. -/
def load_history_lines : List (Option (List Char)) → List (List Char)
  | [] => []
  | some l :: rest => l :: load_history_lines rest
  | none :: rest => load_history_lines rest

/-- `History::load_history`: on a failed file open the line list stays
empty; otherwise decoded lines are collected in order, failed lines skipped. -/
def load_history (readResult : Option (List (Option (List Char)))) : List (List Char) :=
  match readResult with
  | some lines => load_history_lines lines
  | none => []

/-- `History::query_history_map` (src/src/main.rs lines 138-153): collect the
keys of the history map on which `match_fn` succeeds. -/
def query_history_map : List (List Char × List Nat) → (List Char → List (List Char) → Bool) → List (List Char) → List (List Char)
  | [], _, _ => []
  | (k, _) :: rest, f, terms =>
    if f k terms then k :: query_history_map rest f terms
    else query_history_map rest f terms

/-! ### Flag handling (`Cli`, `History::new`, `History::apply_flags`,
src/src/main.rs lines 17-33, 55-99) -/

/-- The parsed command line (src/src/main.rs lines 17-33). -/
structure Cli where
  search_terms : List (List Char)
  history : Bool
  file : Bool
  dedupe : Bool
  ordered : Bool

/-- `History::new` initialises `match_fn` to `unordered_match`
(src/src/main.rs line 79). -/
def new_match_fn : List Char → List (List Char) → Bool := unordered_match

/-- The effect of `History::apply_flags` on `match_fn`
(src/src/main.rs lines 83-99): the `history` and `file` branches leave the
current matcher untouched, and only the final `else if matches.ordered`
branch installs `ordered_match`. -/
def apply_flags_match_fn (c : Cli) (current : List Char → List (List Char) → Bool) :
    List Char → List (List Char) → Bool :=
  if c.history then current
  else if c.file then current
  else if c.ordered then ordered_match
  else current

/-- The matcher in effect for a whole process invocation
(`History::new` followed by `History::apply_flags`, as in `main`). -/
def process_match_fn (c : Cli) : List Char → List (List Char) → Bool :=
  apply_flags_match_fn c new_match_fn

/-! ### Dialect normalizer

Modelled from the spec: the Dialect Normalizer of §4.1 is not present in
src/src/main.rs (the loaded lines are indexed verbatim); `ShellDialect`,
`afterLastSemi` and `normalize` below follow the spec's words: for
`ZshExtended`, split the raw line on `;` and keep the text after the last
`;`, returning the empty string when no `;` is present; for `Generic`,
return the line unchanged. -/

inductive ShellDialect : Type
  | Generic : ShellDialect
  | ZshExtended : ShellDialect

/-- Modelled from the spec: the text after the last `;` of a line, or
`none` when the line contains no `;`. -/
def afterLastSemi : List Char → Option (List Char)
  | [] => none
  | c :: rest =>
    match afterLastSemi rest with
    | some t => some t
    | none => if c = ';' then some rest else none

/-- Modelled from the spec: `normalize(raw, dialect)` of §4.1 (named
`normalizeLine` here because Mathlib already declares `normalize`). -/
def normalizeLine (raw : List Char) (d : ShellDialect) : List Char :=
  match d with
  | ShellDialect.Generic => raw
  | ShellDialect.ZshExtended => (afterLastSemi raw).getD []

/-! ### UTF-8 byte level (for the slice-safety claim)

Rust strings are UTF-8 byte sequences and `ordered_match` slices at byte
index `pos + a.len()`.  `utf8EncodeChar`/`encodeStr` produce the byte
sequence of a string, so that `findSub`/`ordered_match` on `List Nat`
are the byte-level run of the Rust code. -/

/-- UTF-8 encoding of one scalar value, as natural-number bytes. -/
def utf8EncodeChar (c : Char) : List Nat :=
  if c.toNat < 128 then [c.toNat]
  else if c.toNat < 2048 then [192 + c.toNat / 64, 128 + c.toNat % 64]
  else if c.toNat < 65536 then
    [224 + c.toNat / 4096, 128 + (c.toNat / 64) % 64, 128 + c.toNat % 64]
  else
    [240 + c.toNat / 262144, 128 + (c.toNat / 4096) % 64,
      128 + (c.toNat / 64) % 64, 128 + c.toNat % 64]

/-- UTF-8 encoding of a string (list of scalar values) as its byte list. -/
def encodeStr : List Char → List Nat
  | [] => []
  | c :: rest => utf8EncodeChar c ++ encodeStr rest

/-- Partial UTF-8 decoder: reads one encoded scalar value from the front of
a byte list (used to prove that encodings are prefix-determined). -/
def utf8DecodeHead : List Nat → Option (Nat × List Nat)
  | [] => none
  | b :: rest =>
    if b < 128 then some (b, rest)
    else if b < 224 then
      match rest with
      | b1 :: rest1 => some ((b - 192) * 64 + (b1 - 128), rest1)
      | [] => none
    else if b < 240 then
      match rest with
      | b1 :: b2 :: rest2 =>
        some ((b - 224) * 4096 + (b1 - 128) * 64 + (b2 - 128), rest2)
      | _ => none
    else
      match rest with
      | b1 :: b2 :: b3 :: rest3 =>
        some ((b - 240) * 262144 + (b1 - 128) * 4096 + (b2 - 128) * 64 + (b3 - 128), rest3)
      | _ => none

/-! ### Substring search: basic lemmas -/

theorem startsWith_iff {α : Type} [DecidableEq α] (a : List α) :
    ∀ k : List α, startsWith a k = true ↔ ∃ s, k = a ++ s := by
  induction a with
  | nil => intro k; simp [startsWith]
  | cons x xs ih =>
    intro k
    cases k with
    | nil =>
      simp [startsWith]
    | cons y ys =>
      constructor
      · intro h
        simp only [startsWith] at h
        by_cases hxy : x = y
        · subst hxy
          rw [if_pos rfl] at h
          obtain ⟨s, rfl⟩ := (ih ys).mp h
          exact ⟨s, rfl⟩
        · rw [if_neg hxy] at h
          exact absurd h (by simp)
      · rintro ⟨s, hs⟩
        injection hs with h1 h2
        subst h1
        simp only [startsWith, if_pos rfl]
        exact (ih ys).mpr ⟨s, h2⟩

theorem findSub_zero {α : Type} [DecidableEq α] (key a : List α)
    (h : startsWith a key = true) : findSub key a = some 0 := by
  cases key with
  | nil => simp [findSub, h]
  | cons x t => simp [findSub, h]

/-- Soundness of `findSub`: a returned index is the length of a prefix
preceding an occurrence of the needle. -/
theorem findSub_decomp {α : Type} [DecidableEq α] :
    ∀ (key a : List α) (pos : Nat), findSub key a = some pos →
      ∃ p s, key = p ++ (a ++ s) ∧ p.length = pos := by
  intro key
  induction key with
  | nil =>
    intro a pos h
    simp only [findSub] at h
    split at h
    · rename_i hs
      obtain ⟨s, hk⟩ := (startsWith_iff a []).mp hs
      cases h
      exact ⟨[], s, by simpa using hk, rfl⟩
    · cases h
  | cons x t ih =>
    intro a pos h
    simp only [findSub] at h
    split at h
    · rename_i hs
      obtain ⟨s, hk⟩ := (startsWith_iff a (x :: t)).mp hs
      cases h
      exact ⟨[], s, by simpa using hk, rfl⟩
    · rw [Option.map_eq_some'] at h
      obtain ⟨q, hq, hpos⟩ := h
      obtain ⟨p, s, hk, hl⟩ := ih a q hq
      exact ⟨x :: p, s, by simp [hk], by simp [hl, ← hpos]⟩

/-- Completeness of `findSub`: on a key containing an occurrence of the
needle after prefix `p`, the search succeeds with index at most `p.length`. -/
theorem findSub_of_decomp {α : Type} [DecidableEq α] :
    ∀ p a s : List α, ∃ f, findSub (p ++ (a ++ s)) a = some f ∧ f ≤ p.length := by
  intro p
  induction p with
  | nil =>
    intro a s
    exact ⟨0, findSub_zero _ _ ((startsWith_iff a _).mpr ⟨s, by simp⟩), Nat.zero_le _⟩
  | cons y p' ih =>
    intro a s
    by_cases hs : startsWith a ((y :: p') ++ (a ++ s)) = true
    · exact ⟨0, findSub_zero _ _ hs, Nat.zero_le _⟩
    · obtain ⟨f', hf', hle⟩ := ih a s
      refine ⟨f' + 1, ?_, by simp; omega⟩
      rw [Bool.not_eq_true] at hs
      simp only [List.cons_append] at hs ⊢
      simp [findSub, hs, hf']

/-- Dropping `f + t.length` elements of `p ++ t ++ s` with `f ≤ p.length`
keeps `s` intact as a suffix. -/
theorem drop_of_decomp {α : Type} (p t s : List α) (f : Nat) (hle : f ≤ p.length) :
    (p ++ (t ++ s)).drop (f + t.length) = (p ++ t).drop (f + t.length) ++ s := by
  rw [← List.append_assoc, List.drop_append_eq_append_drop]
  have h3 : f + t.length - (p ++ t).length = 0 := by
    simp only [List.length_append]; omega
  rw [h3, List.drop_zero]

/-! ### Ordered matching and sequential occurrence -/

theorem seqOccurs_append_left {α : Type} :
    ∀ (ts : List (List α)) (x s : List α), SeqOccurs s ts → SeqOccurs (x ++ s) ts := by
  intro ts
  cases ts with
  | nil => intro x s _; exact True.intro
  | cons t ts' =>
    intro x s h
    simp only [SeqOccurs] at h ⊢
    obtain ⟨p, s', hk, hs⟩ := h
    exact ⟨x ++ p, s', by simp [hk], hs⟩

theorem ordered_match_seqOccurs {α : Type} [DecidableEq α] :
    ∀ (ts : List (List α)) (key : List α),
      ordered_match key ts = true → SeqOccurs key ts := by
  intro ts
  induction ts with
  | nil => intro key _; exact True.intro
  | cons t ts' ih =>
    intro key h
    simp only [ordered_match] at h
    split at h
    · rename_i pos hf
      obtain ⟨p, s, hk, hl⟩ := findSub_decomp key t pos hf
      have hdrop : key.drop (pos + t.length) = s := by
        rw [hk, ← List.append_assoc]
        have hlen : pos + t.length = (p ++ t).length := by
          simp [List.length_append, hl]
        rw [hlen, List.drop_left]
      simp only [SeqOccurs]
      refine ⟨p, s, hk, ?_⟩
      exact ih s (by rw [← hdrop]; exact h)
    · cases h

theorem seqOccurs_ordered_match {α : Type} [DecidableEq α] :
    ∀ (ts : List (List α)) (key : List α),
      SeqOccurs key ts → ordered_match key ts = true := by
  intro ts
  induction ts with
  | nil => intro key _; simp [ordered_match]
  | cons t ts' ih =>
    intro key h
    simp only [SeqOccurs] at h
    obtain ⟨p, s, hk, hs⟩ := h
    obtain ⟨f, hf, hle⟩ := findSub_of_decomp p t s
    rw [← hk] at hf
    simp only [ordered_match, hf]
    apply ih
    have h1 : key.drop (f + t.length) = (p ++ t).drop (f + t.length) ++ s := by
      rw [hk]; exact drop_of_decomp p t s f hle
    rw [h1]
    exact seqOccurs_append_left ts' _ s hs

theorem seqOccurs_unordered_match {α : Type} [DecidableEq α] :
    ∀ (ts : List (List α)) (key : List α),
      SeqOccurs key ts → unordered_match key ts = true := by
  intro ts
  induction ts with
  | nil => intro key _; simp [unordered_match]
  | cons t ts' ih =>
    intro key h
    simp only [SeqOccurs] at h
    obtain ⟨p, s, hk, hs⟩ := h
    obtain ⟨f, hf, hle⟩ := findSub_of_decomp p t s
    rw [← hk] at hf
    simp only [unordered_match, hf]
    apply ih
    have h1 : removeFirst key t = (key.take f ++ (p ++ t).drop (f + t.length)) ++ s := by
      simp only [removeFirst, hf]
      have h2 : key.drop (f + t.length) = (p ++ t).drop (f + t.length) ++ s := by
        rw [hk]; exact drop_of_decomp p t s f hle
      rw [h2]
      rw [List.append_assoc]
    rw [h1]
    exact seqOccurs_append_left ts' _ s hs

/-! ### Empty-key and empty-term behaviour -/

theorem findSub_nil {α : Type} [DecidableEq α] (t : List α) :
    findSub ([] : List α) t = if t = [] then some 0 else none := by
  cases t with
  | nil => simp [findSub, startsWith]
  | cons x xs => simp [findSub, startsWith]

theorem empty_key_unordered :
    ∀ ts : List (List Char),
      unordered_match ([] : List Char) ts = true ↔ ∀ t ∈ ts, t = [] := by
  intro ts
  induction ts with
  | nil => simp [unordered_match]
  | cons t ts' ih =>
    by_cases ht : t = ([] : List Char)
    · subst ht
      have h1 : unordered_match ([] : List Char) ([] :: ts') =
          unordered_match ([] : List Char) ts' := by
        simp [unordered_match, removeFirst, findSub_nil]
      rw [h1, ih]
      simp
    · have h1 : unordered_match ([] : List Char) (t :: ts') = false := by
        simp only [unordered_match]
        rw [findSub_nil t, if_neg ht]
      rw [h1]
      simp [ht]

theorem empty_key_ordered :
    ∀ ts : List (List Char),
      ordered_match ([] : List Char) ts = true ↔ ∀ t ∈ ts, t = [] := by
  intro ts
  induction ts with
  | nil => simp [ordered_match]
  | cons t ts' ih =>
    by_cases ht : t = ([] : List Char)
    · subst ht
      have h1 : ordered_match ([] : List Char) ([] :: ts') =
          ordered_match ([] : List Char) ts' := by
        simp [ordered_match, findSub_nil]
      rw [h1, ih]
      simp
    · have h1 : ordered_match ([] : List Char) (t :: ts') = false := by
        simp only [ordered_match]
        rw [findSub_nil t, if_neg ht]
      rw [h1]
      simp [ht]

/-! ### Consumption of occurrences by `unordered_match` -/

theorem unordered_double_count (c : Char) (key : List Char)
    (h : unordered_match key [[c], [c]] = true) : 2 ≤ key.count c := by
  simp only [unordered_match] at h
  split at h
  · rename_i pos hf
    obtain ⟨p, s, hk, hl⟩ := findSub_decomp key [c] pos hf
    have hrf : removeFirst key [c] = p ++ s := by
      simp only [removeFirst, hf, List.length_cons, List.length_nil, Nat.zero_add]
      have h1 : key.take pos = p := by
        rw [hk, ← hl, List.take_left]
      have h2 : key.drop (pos + 1) = s := by
        rw [hk, ← List.append_assoc]
        have hlen : pos + 1 = (p ++ [c]).length := by
          simp [List.length_append, hl]
        rw [hlen, List.drop_left]
      rw [h1, h2]
    rw [hrf] at h
    split at h
    · rename_i pos2 hf2
      obtain ⟨p2, s2, hk2, _⟩ := findSub_decomp (p ++ s) [c] pos2 hf2
      have hc : c ∈ p ++ s := by rw [hk2]; simp
      have hcount : 0 < (p ++ s).count c := List.count_pos_iff.mpr hc
      rw [hk]
      have h5 : List.count c [c] = 1 := by simp
      simp only [List.count_append, h5] at hcount ⊢
      omega
    · cases h
  · cases h

/-! ### Claim theorems (matching) -/

/-- Claim C3 (amended): for both matchers, the empty candidate line matches
exactly the term lists all of whose terms are empty (not only the empty term
list), and an empty-string term is not always-matching: the query
`["", "x"]`, which contains an empty-string term, fails on candidate `"a"`. -/
theorem claim_C3 :
    (∀ ts : List (List Char),
      unordered_match ([] : List Char) ts = true ↔ ∀ t ∈ ts, t = []) ∧
    (∀ ts : List (List Char),
      ordered_match ([] : List Char) ts = true ↔ ∀ t ∈ ts, t = []) ∧
    unordered_match ['a'] [([] : List Char), ['x']] = false ∧
    ordered_match ['a'] [([] : List Char), ['x']] = false :=
  ⟨empty_key_unordered, empty_key_ordered, by decide, by decide⟩

theorem claim_C3_witness : unordered_match ([] : List Char) [] = true :=
  (claim_C3.1 []).mpr (by simp)

/-- Claim C3 counterexample: the empty candidate line also matches the
non-empty term list `[""]` under both matchers, contradicting "matches only
the empty term list". -/
theorem claim_C3_counterexample :
    unordered_match ([] : List Char) [([] : List Char)] = true ∧
    ordered_match ([] : List Char) [([] : List Char)] = true ∧
    [([] : List Char)] ≠ ([] : List (List Char)) :=
  ⟨by decide, by decide, by decide⟩

/-- Claim C5: `unordered_match` consumes one occurrence per matched term:
`unordered_match("aa",["a","a"])` is true, `unordered_match("a",["a","a"])`
is false, and in general a term repeated twice in the query requires two
distinct occurrences (a key matching `[[c],[c]]` contains `c` at least
twice). -/
theorem claim_C5 :
    unordered_match ['a', 'a'] [['a'], ['a']] = true ∧
    unordered_match ['a'] [['a'], ['a']] = false ∧
    ∀ (c : Char) (key : List Char),
      unordered_match key [[c], [c]] = true → 2 ≤ key.count c :=
  ⟨by decide, by decide, fun c key h => unordered_double_count c key h⟩

theorem claim_C5_witness : 2 ≤ (['a', 'a'] : List Char).count 'a' :=
  claim_C5.2.2 'a' ['a', 'a'] (by decide)

/-- Claim C6: `ordered_match("foofoo",["foo","foo"])` is true and
`ordered_match("foo",["foo","foo"])` is false; in general `ordered_match`
succeeds exactly when the terms occur in the given order, each strictly
after the end of the previous occurrence (`SeqOccurs`). -/
theorem claim_C6 :
    ordered_match ['f', 'o', 'o', 'f', 'o', 'o'] [['f', 'o', 'o'], ['f', 'o', 'o']] = true ∧
    ordered_match ['f', 'o', 'o'] [['f', 'o', 'o'], ['f', 'o', 'o']] = false ∧
    ∀ (key : List Char) (ts : List (List Char)),
      ordered_match key ts = true ↔ SeqOccurs key ts := by
  refine ⟨by decide, by decide, ?_⟩
  intro key ts
  exact ⟨ordered_match_seqOccurs ts key, seqOccurs_ordered_match ts key⟩

theorem claim_C6_witness : ordered_match ['x'] ([] : List (List Char)) = true :=
  (claim_C6.2.2 ['x'] []).mpr True.intro

/-- Claim C7: for any term list without repeated terms, an ordered match
implies an unordered match on the same candidate line. -/
theorem claim_C7 (key : List Char) (ts : List (List Char)) (_hnd : ts.Nodup)
    (h : ordered_match key ts = true) : unordered_match key ts = true :=
  seqOccurs_unordered_match ts key (ordered_match_seqOccurs ts key h)

theorem claim_C7_witness : unordered_match ['a', 'b'] [['a'], ['b']] = true :=
  claim_C7 ['a', 'b'] [['a'], ['b']] (by decide) (by decide)

/-! ### Claim theorems (flags, normalizer, file loading) -/

theorem process_match_fn_eq (c : Cli) :
    process_match_fn c =
      if c.history = false ∧ c.file = false ∧ c.ordered = true
      then ordered_match else unordered_match := by
  obtain ⟨st, bh, bf, bd, bo⟩ := c
  cases bh <;> cases bf <;> cases bo <;>
    simp [process_match_fn, apply_flags_match_fn, new_match_fn]

/-- Claim C1 (amended): the Query Executor applies `ordered_match` exactly
when the `ordered` flag is supplied and neither the `history` flag nor the
`file` flag is supplied; in every other case (including `ordered` combined
with `history` or `file`) it applies `unordered_match`. -/
theorem claim_C1 (c : Cli) :
    (c.history = false → c.file = false → c.ordered = true →
      process_match_fn c = ordered_match) ∧
    (c.history = true ∨ c.file = true ∨ c.ordered = false →
      process_match_fn c = unordered_match) := by
  constructor
  · intro h1 h2 h3
    rw [process_match_fn_eq, if_pos ⟨h1, h2, h3⟩]
  · intro hcase
    have hneg : ¬(c.history = false ∧ c.file = false ∧ c.ordered = true) := by
      rintro ⟨h1, h2, h3⟩
      rcases hcase with h | h | h
      · simp [h] at h1
      · simp [h] at h2
      · simp [h] at h3
    rw [process_match_fn_eq, if_neg hneg]

theorem claim_C1_witness :
    process_match_fn (Cli.mk [] false false false true) = ordered_match :=
  (claim_C1 (Cli.mk [] false false false true)).1 rfl rfl rfl

/-- Claim C1 counterexample: with the `history` flag and the `ordered` flag
both supplied, `apply_flags` takes the `history` branch and never installs
`ordered_match`, so the matching strategy is not `ordered_match` even though
the ordered flag is set. -/
theorem claim_C1_counterexample :
    (Cli.mk [] true false false true).ordered = true ∧
    process_match_fn (Cli.mk [] true false false true) ≠ ordered_match := by
  refine ⟨rfl, ?_⟩
  intro h
  have h2 : process_match_fn (Cli.mk [] true false false true) ['a', 'b'] [['b'], ['a']] =
      ordered_match ['a', 'b'] [['b'], ['a']] := by rw [h]
  have h3 : process_match_fn (Cli.mk [] true false false true) ['a', 'b'] [['b'], ['a']] = true := by
    decide
  have h4 : ordered_match ['a', 'b'] [['b'], ['a']] = false := by decide
  rw [h3, h4] at h2
  exact Bool.noConfusion h2

/-! ### Normalizer lemmas -/

theorem afterLastSemi_of_not_mem (raw : List Char) (h : ';' ∉ raw) :
    afterLastSemi raw = none := by
  induction raw with
  | nil => rfl
  | cons c rest ih =>
    have hc : c ≠ ';' := fun hc => h (by simp [hc])
    have hrest : ';' ∉ rest := fun hr => h (by simp [hr])
    simp only [afterLastSemi, ih hrest]
    rw [if_neg hc]

theorem afterLastSemi_append (p cmd : List Char) (h : ';' ∉ cmd) :
    afterLastSemi (p ++ ';' :: cmd) = some cmd := by
  induction p with
  | nil =>
    simp only [List.nil_append, afterLastSemi, afterLastSemi_of_not_mem cmd h]
    simp
  | cons c p' ih =>
    simp only [List.cons_append, afterLastSemi, List.append_eq, ih]

/-- Claim C2 (spec-modelled normalizer): under `ZshExtended` a raw line is
normalized to the text after its last `;` (so `: <epoch>:<duration>;<cmd>`
becomes `<cmd>`), a line with no `;` normalizes to the empty string, and
under `Generic` the line passes through unchanged. -/
theorem claim_C2 :
    (∀ p cmd : List Char, ';' ∉ cmd →
      normalizeLine (p ++ ';' :: cmd) ShellDialect.ZshExtended = cmd) ∧
    (∀ raw : List Char, ';' ∉ raw →
      normalizeLine raw ShellDialect.ZshExtended = []) ∧
    (∀ raw : List Char, normalizeLine raw ShellDialect.Generic = raw) := by
  refine ⟨?_, ?_, fun _ => rfl⟩
  · intro p cmd h
    simp [normalizeLine, afterLastSemi_append p cmd h]
  · intro raw h
    simp [normalizeLine, afterLastSemi_of_not_mem raw h]

theorem claim_C2_witness :
    normalizeLine [':', '1', ';', 'l', 's'] ShellDialect.ZshExtended = ['l', 's'] ∧
    normalizeLine ['l', 's'] ShellDialect.ZshExtended = [] :=
  ⟨claim_C2.1 [':', '1'] ['l', 's'] (by decide), claim_C2.2.1 ['l', 's'] (by decide)⟩

/-! ### File-loading lemmas -/

theorem load_history_lines_append_err (pre post : List (Option (List Char))) :
    load_history_lines (pre ++ none :: post) =
      load_history_lines pre ++ load_history_lines post := by
  induction pre with
  | nil => rfl
  | cons x pre' ih =>
    cases x with
    | none => simp only [List.cons_append, load_history_lines, List.append_eq, ih]
    | some l => simp only [List.cons_append, load_history_lines, List.append_eq, ih]

theorem load_history_lines_append_ok (pre post : List (Option (List Char))) (l : List Char) :
    load_history_lines (pre ++ some l :: post) =
      load_history_lines pre ++ l :: load_history_lines post := by
  induction pre with
  | nil => rfl
  | cons x pre' ih =>
    cases x with
    | none => simp only [List.cons_append, load_history_lines, List.append_eq, ih]
    | some l' => simp only [List.cons_append, load_history_lines, List.append_eq, ih]

/-- Claim C8: a failed file open yields an empty line list, hence an empty
index and empty query results; a line that fails to decode is skipped while
all remaining lines are still processed. -/
theorem claim_C8 :
    load_history none = [] ∧
    load_history_map (load_history none) = [] ∧
    (∀ (f : List Char → List (List Char) → Bool) (terms : List (List Char)),
      query_history_map (load_history_map (load_history none)) f terms = []) ∧
    (∀ pre post, load_history (some (pre ++ none :: post)) =
      load_history (some pre) ++ load_history (some post)) ∧
    (∀ pre post (l : List Char), load_history (some (pre ++ some l :: post)) =
      load_history (some pre) ++ l :: load_history (some post)) :=
  ⟨rfl, rfl, fun _ _ => rfl,
    fun pre post => load_history_lines_append_err pre post,
    fun pre post l => load_history_lines_append_ok pre post l⟩

theorem claim_C8_witness :
    load_history (some [some ['a'], none, some ['b']]) =
      load_history (some [some ['a']]) ++ load_history (some [some ['b']]) :=
  claim_C8.2.2.2.1 [some ['a']] [some ['b']]

/-! ### Line-index lemmas -/

theorem lookupMap_pushEntry (m : List (List Char × List Nat)) (line q : List Char) (v : Nat) :
    lookupMap (pushEntry m line v) q =
      if line = q then some ((lookupMap m q).getD [] ++ [v]) else lookupMap m q := by
  induction m with
  | nil =>
    by_cases hlq : line = q
    · simp [pushEntry, lookupMap, hlq]
    · simp [pushEntry, lookupMap, hlq]
  | cons kv rest ih =>
    obtain ⟨k, vs⟩ := kv
    by_cases hkl : k = line
    · subst hkl
      by_cases hkq : k = q
      · subst hkq
        simp [pushEntry, lookupMap]
      · simp [pushEntry, lookupMap, hkq]
    · by_cases hkq : k = q
      · subst hkq
        have hlk : line ≠ k := fun hh => hkl hh.symm
        simp [pushEntry, lookupMap, hkl, hlk]
      · simp [pushEntry, lookupMap, hkl, hkq, ih]

theorem lookupMap_aux (lines : List (List Char)) :
    ∀ (index : Nat) (m : List (List Char × List Nat)) (q : List Char),
      lookupMap (load_history_map_aux lines index m) q =
        match lookupMap m q with
        | some vs => some (vs ++ positionsFromW lines index q)
        | none =>
          if positionsFromW lines index q = [] then none
          else some (positionsFromW lines index q) := by
  induction lines with
  | nil =>
    intro index m q
    simp only [load_history_map_aux, positionsFromW]
    cases hm : lookupMap m q with
    | some vs => simp
    | none => simp
  | cons l rest ih =>
    intro index m q
    simp only [load_history_map_aux]
    rw [ih ((index + 1) % 65536) (pushEntry m l ((index + 1) % 65536)) q]
    rw [lookupMap_pushEntry]
    simp only [positionsFromW]
    by_cases hlq : l = q
    · subst hlq
      cases hm : lookupMap m l with
      | some vs => simp [hm, List.append_assoc]
      | none => simp [hm]
    · simp [hlq]

/-- Bridge: lookup in the built history map, via the wrapped positions list. -/
theorem lookupMap_load_history_map (lines : List (List Char)) (q : List Char) :
    lookupMap (load_history_map lines) q =
      if positionsFromW lines 0 q = [] then none
      else some (positionsFromW lines 0 q) := by
  simp only [load_history_map]
  rw [lookupMap_aux]
  simp only [lookupMap]

theorem positionsFromW_eq_positionsFrom (lines : List (List Char)) :
    ∀ (index : Nat) (q : List Char), index + lines.length ≤ 65535 →
      positionsFromW lines index q = positionsFrom lines index q := by
  induction lines with
  | nil => intro index q _; rfl
  | cons l rest ih =>
    intro index q h
    simp only [List.length_cons] at h
    have hmod : (index + 1) % 65536 = index + 1 := Nat.mod_eq_of_lt (by omega)
    simp only [positionsFromW, positionsFrom, hmod]
    rw [ih (index + 1) q (by omega)]

/-- As `lookupMap_load_history_map`, but with the true (unwrapped) positions,
valid for inputs of at most 65535 lines. -/
theorem lookupMap_bounded (lines : List (List Char)) (q : List Char)
    (h : lines.length ≤ 65535) :
    lookupMap (load_history_map lines) q =
      if positionsFrom lines 0 q = [] then none
      else some (positionsFrom lines 0 q) := by
  rw [lookupMap_load_history_map, positionsFromW_eq_positionsFrom lines 0 q (by omega)]

theorem positionsFrom_lower (lines : List (List Char)) :
    ∀ (index : Nat) (q : List Char) (v : Nat),
      v ∈ positionsFrom lines index q → index < v := by
  induction lines with
  | nil => intro index q v h; simp [positionsFrom] at h
  | cons l rest ih =>
    intro index q v h
    simp only [positionsFrom] at h
    by_cases hlq : l = q
    · rw [if_pos hlq] at h
      rcases List.mem_cons.mp h with h1 | h1
      · omega
      · have := ih (index + 1) q v h1; omega
    · rw [if_neg hlq] at h
      have := ih (index + 1) q v h; omega

theorem positionsFrom_chain (lines : List (List Char)) :
    ∀ (index : Nat) (q : List Char),
      List.Chain' (· < ·) (positionsFrom lines index q) := by
  induction lines with
  | nil => intro index q; simp [positionsFrom]
  | cons l rest ih =>
    intro index q
    simp only [positionsFrom]
    by_cases hlq : l = q
    · rw [if_pos hlq]
      rw [List.chain'_cons']
      refine ⟨?_, ih (index + 1) q⟩
      intro y hy
      have hmem : y ∈ positionsFrom rest (index + 1) q := List.mem_of_mem_head? hy
      have := positionsFrom_lower rest (index + 1) q y hmem
      omega
    · rw [if_neg hlq]; exact ih (index + 1) q

theorem positionsFrom_mem (lines : List (List Char)) :
    ∀ (index : Nat) (q : List Char) (v : Nat),
      v ∈ positionsFrom lines index q ↔
        index < v ∧ v ≤ index + lines.length ∧ lines.get? (v - index - 1) = some q := by
  induction lines with
  | nil =>
    intro index q v
    simp [positionsFrom]
  | cons l rest ih =>
    intro index q v
    simp only [positionsFrom]
    by_cases hlq : l = q
    · rw [if_pos hlq]
      subst hlq
      constructor
      · intro h
        rcases List.mem_cons.mp h with h1 | h1
        · subst h1
          refine ⟨by omega, by simp only [List.length_cons]; omega, ?_⟩
          have h0 : index + 1 - index - 1 = 0 := by omega
          rw [h0]; rfl
        · obtain ⟨ha, hb, hc⟩ := (ih (index + 1) l v).mp h1
          refine ⟨by omega, by simp only [List.length_cons]; omega, ?_⟩
          have hv : v - index - 1 = (v - (index + 1) - 1) + 1 := by omega
          rw [hv]
          simpa using hc
      · rintro ⟨ha, hb, hc⟩
        by_cases hv1 : v = index + 1
        · exact List.mem_cons.mpr (Or.inl hv1)
        · refine List.mem_cons.mpr (Or.inr ((ih (index + 1) l v).mpr ?_))
          simp only [List.length_cons] at hb
          refine ⟨by omega, by omega, ?_⟩
          have hv : v - index - 1 = (v - (index + 1) - 1) + 1 := by omega
          rw [hv] at hc
          simpa using hc
    · rw [if_neg hlq]
      constructor
      · intro h
        obtain ⟨ha, hb, hc⟩ := (ih (index + 1) q v).mp h
        refine ⟨by omega, by simp only [List.length_cons]; omega, ?_⟩
        have hv : v - index - 1 = (v - (index + 1) - 1) + 1 := by omega
        rw [hv]
        simpa using hc
      · rintro ⟨ha, hb, hc⟩
        apply (ih (index + 1) q v).mpr
        by_cases hv1 : v = index + 1
        · subst hv1
          have h0 : (l :: rest).get? (index + 1 - index - 1) = some l := by
            have h1 : index + 1 - index - 1 = 0 := by omega
            rw [h1]; rfl
          rw [h0] at hc
          injection hc with hc'
          exact absurd hc' hlq
        · simp only [List.length_cons] at hb
          refine ⟨by omega, by omega, ?_⟩
          have hv : v - index - 1 = (v - (index + 1) - 1) + 1 := by omega
          rw [hv] at hc
          simpa using hc

theorem positionsFrom_nil_iff (lines : List (List Char)) :
    ∀ (index : Nat) (q : List Char), positionsFrom lines index q = [] ↔ q ∉ lines := by
  induction lines with
  | nil => intro index q; simp [positionsFrom]
  | cons l rest ih =>
    intro index q
    by_cases hlq : l = q
    · subst hlq
      simp [positionsFrom]
    · have hql : q ≠ l := fun hh => hlq hh.symm
      simp [positionsFrom, hlq, ih (index + 1) q, hql]

theorem pushEntry_cons_self (k : List Char) (vs : List Nat)
    (rest : List (List Char × List Nat)) (v : Nat) :
    pushEntry ((k, vs) :: rest) k v = (k, vs ++ [v]) :: rest := by
  simp [pushEntry]

theorem pushEntry_cons_ne (k line : List Char) (vs : List Nat)
    (rest : List (List Char × List Nat)) (v : Nat) (h : k ≠ line) :
    pushEntry ((k, vs) :: rest) line v = (k, vs) :: pushEntry rest line v := by
  simp [pushEntry, h]

theorem mem_keys_pushEntry (m : List (List Char × List Nat)) (line x : List Char) (v : Nat) :
    x ∈ (pushEntry m line v).map Prod.fst ↔ x ∈ m.map Prod.fst ∨ x = line := by
  induction m with
  | nil => simp [pushEntry]
  | cons kv rest ih =>
    obtain ⟨k, vs⟩ := kv
    by_cases hkl : k = line
    · subst hkl
      rw [pushEntry_cons_self]
      simp only [List.map_cons, List.mem_cons]
      constructor
      · intro h; exact Or.inl h
      · rintro (h | h)
        · exact h
        · exact Or.inl h
    · rw [pushEntry_cons_ne k line vs rest v hkl]
      simp only [List.map_cons, List.mem_cons, ih]
      constructor
      · rintro (h | h | h)
        · exact Or.inl (Or.inl h)
        · exact Or.inl (Or.inr h)
        · exact Or.inr h
      · rintro ((h | h) | h)
        · exact Or.inl h
        · exact Or.inr (Or.inl h)
        · exact Or.inr (Or.inr h)

theorem nodup_keys_pushEntry (m : List (List Char × List Nat)) (line : List Char) (v : Nat)
    (h : (m.map Prod.fst).Nodup) : ((pushEntry m line v).map Prod.fst).Nodup := by
  induction m with
  | nil => simp [pushEntry]
  | cons kv rest ih =>
    obtain ⟨k, vs⟩ := kv
    simp only [List.map_cons, List.nodup_cons] at h
    obtain ⟨hk, hrest⟩ := h
    by_cases hkl : k = line
    · subst hkl
      rw [pushEntry_cons_self]
      simp only [List.map_cons, List.nodup_cons]
      exact ⟨hk, hrest⟩
    · rw [pushEntry_cons_ne k line vs rest v hkl]
      simp only [List.map_cons, List.nodup_cons]
      refine ⟨?_, ih hrest⟩
      intro hmem
      rcases (mem_keys_pushEntry rest line k v).mp hmem with h1 | h1
      · exact hk h1
      · exact hkl h1

theorem nodup_keys_aux (lines : List (List Char)) :
    ∀ (index : Nat) (m : List (List Char × List Nat)),
      (m.map Prod.fst).Nodup → ((load_history_map_aux lines index m).map Prod.fst).Nodup := by
  induction lines with
  | nil => intro index m h; exact h
  | cons l rest ih =>
    intro index m h
    simp only [load_history_map_aux]
    exact ih _ _ (nodup_keys_pushEntry m l _ h)

/-! ### Wrap-around of the 16-bit counter -/

theorem positionsFromW_replicate (n : Nat) (x : List Char) :
    ∀ index : Nat, positionsFromW (List.replicate n x) index x =
      (List.range n).map (fun j => (index + j + 1) % 65536) := by
  induction n with
  | zero => intro index; rfl
  | succ n' ih =>
    intro index
    rw [List.replicate_succ]
    simp only [positionsFromW, if_pos rfl]
    rw [ih ((index + 1) % 65536)]
    rw [List.range_succ_eq_map, List.map_cons, List.map_map]
    refine List.cons_eq_cons.mpr ⟨by omega, ?_⟩
    apply List.map_congr_left
    intro a _
    simp only [Function.comp_apply]
    omega

/-- The wrapped positions list of 65536 identical lines: the key maps to
`[1 % 65536, ..., 65536 % 65536]`, whose final entry has wrapped to 0. -/
theorem lookup_replicate_65536 (c : Char) :
    lookupMap (load_history_map (List.replicate 65536 [c])) [c] =
      some ((List.range 65536).map (fun j => (j + 1) % 65536)) := by
  have hne : ((List.range 65536).map (fun j => (j + 1) % 65536)) ≠ [] := by
    intro hX
    have hlen := congrArg List.length hX
    simp at hlen
  rw [lookupMap_load_history_map, positionsFromW_replicate 65536 [c] 0]
  have h2 : (List.range 65536).map (fun j => (0 + j + 1) % 65536) =
      (List.range 65536).map (fun j => (j + 1) % 65536) := by
    apply List.map_congr_left
    intro a _
    omega
  rw [h2, if_neg hne]

theorem strictlyIncreasing_iff :
    ∀ l : List Nat, strictlyIncreasing l = true ↔ List.Chain' (· < ·) l := by
  intro l
  induction l with
  | nil => simp [strictlyIncreasing]
  | cons a l ih =>
    cases l with
    | nil => simp [strictlyIncreasing]
    | cons b l' =>
      rw [List.chain'_cons]
      simp only [strictlyIncreasing, Bool.and_eq_true, decide_eq_true_eq]
      rw [ih]

theorem strictlyIncreasing_append_false :
    ∀ (l1 : List Nat) (a b : Nat) (l2 : List Nat), ¬ a < b →
      strictlyIncreasing (l1 ++ a :: b :: l2) = false := by
  intro l1
  induction l1 with
  | nil =>
    intro a b l2 hab
    simp [strictlyIncreasing, hab]
  | cons x l1' ih =>
    intro a b l2 hab
    cases l1' with
    | nil =>
      simp [strictlyIncreasing, hab]
    | cons y l1'' =>
      have h1 := ih a b l2 hab
      simp only [List.cons_append] at h1 ⊢
      simp only [strictlyIncreasing, h1, Bool.and_false]

/-- The decomposition exposing the wrap: the stored positions list of a
65536-line input ends with `65535, 0`. -/
theorem wrapped_positions_decomp :
    (List.range 65536).map (fun j => (j + 1) % 65536) =
      ((List.range 65534).map (fun j => (j + 1) % 65536)) ++ [65535, 0] := by
  have hA : List.range 65536 = List.range 65535 ++ [65535] := by
    have e1 : (65536 : Nat) = 65535 + 1 := by norm_num
    rw [e1, List.range_succ]
  have hB : List.range 65535 = List.range 65534 ++ [65534] := by
    have e2 : (65535 : Nat) = 65534 + 1 := by norm_num
    rw [e2, List.range_succ]
  have h1 : List.range 65536 = List.range 65534 ++ [65534, 65535] := by
    rw [hA, hB]
    simp
  rw [h1, List.map_append]
  have h2 : (([65534, 65535] : List Nat)).map (fun j => (j + 1) % 65536) = [65535, 0] := by
    simp only [List.map_cons, List.map_nil]
  rw [h2]

/-- The wrapped positions list of 65536 identical lines is not strictly
increasing. -/
theorem not_strictlyIncreasing_wrapped :
    strictlyIncreasing ((List.range 65536).map (fun j => (j + 1) % 65536)) = false := by
  rw [wrapped_positions_decomp]
  exact strictlyIncreasing_append_false
    ((List.range 65534).map (fun j => (j + 1) % 65536)) 65535 0 [] (by omega)

/-! ### Claim theorems (line index) -/

/-- Claim C4 (amended): restricted to inputs of at most 65535 lines (the
range of the u16 position counter), `load_history_map` maps each distinct
input line, and nothing else, to the non-empty strictly increasing list of
all of its 1-based positions in input order, with unique keys; building
from `["a","b","a"]` yields exactly the entries `"a" ↦ [1,3]`, `"b" ↦ [2]`. -/
theorem claim_C4 :
    (∀ lines : List (List Char), lines.length ≤ 65535 →
      ((load_history_map lines).map Prod.fst).Nodup ∧
      (∀ q : List Char, (lookupMap (load_history_map lines) q).isSome ↔ q ∈ lines) ∧
      (∀ (q : List Char) (vs : List Nat), lookupMap (load_history_map lines) q = some vs →
        vs ≠ [] ∧ List.Chain' (· < ·) vs ∧
        (∀ v : Nat, v ∈ vs ↔ 1 ≤ v ∧ v ≤ lines.length ∧ lines.get? (v - 1) = some q))) ∧
    load_history_map [['a'], ['b'], ['a']] = [(['a'], [1, 3]), (['b'], [2])] := by
  constructor
  · intro lines hlen
    refine ⟨nodup_keys_aux lines 0 [] (by simp), ?_, ?_⟩
    · intro q
      rw [lookupMap_bounded lines q hlen]
      by_cases hpn : positionsFrom lines 0 q = []
      · simp [hpn, (positionsFrom_nil_iff lines 0 q).mp hpn]
      · have hq : q ∈ lines := by
          by_contra hq
          exact hpn ((positionsFrom_nil_iff lines 0 q).mpr hq)
        simp [hpn, hq]
    · intro q vs hvs
      rw [lookupMap_bounded lines q hlen] at hvs
      by_cases hpn : positionsFrom lines 0 q = []
      · rw [if_pos hpn] at hvs; cases hvs
      · rw [if_neg hpn] at hvs
        injection hvs with hvs'
        subst hvs'
        refine ⟨hpn, positionsFrom_chain lines 0 q, ?_⟩
        intro v
        rw [positionsFrom_mem lines 0 q v]
        constructor
        · rintro ⟨h1, h2, h3⟩
          refine ⟨by omega, by omega, ?_⟩
          have he : v - 0 - 1 = v - 1 := by omega
          rw [he] at h3
          exact h3
        · rintro ⟨h1, h2, h3⟩
          refine ⟨by omega, by omega, ?_⟩
          have he : v - 0 - 1 = v - 1 := by omega
          rw [he]
          exact h3
  · decide

theorem claim_C4_witness :
    List.Chain' (· < ·) [1, 3] ∧ ([1, 3] : List Nat) ≠ [] := by
  have h := (claim_C4.1 [['a'], ['b'], ['a']] (by decide)).2.2 ['a'] [1, 3] (by decide)
  exact ⟨h.2.1, h.1⟩

/-- Claim C4 counterexample: on the input consisting of 65536 copies of the
line "a", the u16 position counter wraps: the stored positions list for
that line is `[1 % 2^16, ..., 65536 % 2^16]`, which ends with `65535, 0`
and is not strictly increasing (`strictlyIncreasing` decides
`List.Chain' (· < ·)`, per the third conjunct). -/
theorem claim_C4_counterexample :
    lookupMap (load_history_map (List.replicate 65536 ['a'])) ['a'] =
      some ((List.range 65536).map (fun j => (j + 1) % 65536)) ∧
    strictlyIncreasing ((List.range 65536).map (fun j => (j + 1) % 65536)) = false ∧
    (∀ l : List Nat, strictlyIncreasing l = true ↔ List.Chain' (· < ·) l) :=
  ⟨lookup_replicate_65536 'a', not_strictlyIncreasing_wrapped, strictlyIncreasing_iff⟩

/-- Claim C9: the position counter is a 16-bit value: for inputs of at most
65535 lines every stored position is the faithful 1-based line position,
while on the 65536-line input `replicate 65536 "b"` the counter wraps
modulo 2^16 (the stored list contains 0) and the ascending-positions
invariant no longer holds. -/
theorem claim_C9 :
    (∀ (lines : List (List Char)) (q : List Char) (vs : List Nat),
      lines.length ≤ 65535 → lookupMap (load_history_map lines) q = some vs →
      ∀ v ∈ vs, 1 ≤ v ∧ v ≤ lines.length ∧ lines.get? (v - 1) = some q) ∧
    lookupMap (load_history_map (List.replicate 65536 ['b'])) ['b'] =
      some ((List.range 65536).map (fun j => (j + 1) % 65536)) ∧
    (0 : Nat) ∈ (List.range 65536).map (fun j => (j + 1) % 65536) ∧
    strictlyIncreasing ((List.range 65536).map (fun j => (j + 1) % 65536)) = false := by
  refine ⟨?_, lookup_replicate_65536 'b', ?_, not_strictlyIncreasing_wrapped⟩
  · intro lines q vs hlen hvs v hv
    rw [lookupMap_bounded lines q hlen] at hvs
    by_cases hpn : positionsFrom lines 0 q = []
    · rw [if_pos hpn] at hvs; cases hvs
    · rw [if_neg hpn] at hvs
      injection hvs with hvs'
      subst hvs'
      obtain ⟨h1, h2, h3⟩ := (positionsFrom_mem lines 0 q v).mp hv
      refine ⟨by omega, by omega, ?_⟩
      have he : v - 0 - 1 = v - 1 := by omega
      rw [he] at h3
      exact h3
  · exact List.mem_map.mpr ⟨65535, List.mem_range.mpr (by norm_num), by norm_num⟩

theorem claim_C9_witness :
    1 ≤ 1 ∧ 1 ≤ ([['b']] : List (List Char)).length ∧
      ([['b']] : List (List Char)).get? (1 - 1) = some ['b'] :=
  claim_C9.1 [['b']] ['b'] [1] (by decide) (by decide) 1 (by decide)

/-! ### UTF-8 byte-level lemmas (slice safety of `ordered_match`) -/

theorem char_toNat_lt (c : Char) : c.toNat < 1114112 := by
  have h := c.valid
  unfold UInt32.isValidChar at h
  unfold Nat.isValidChar at h
  show c.val.toNat < 1114112
  rcases h with h | ⟨h1, h2⟩ <;> omega

theorem char_toNat_inj {c d : Char} (h : c.toNat = d.toNat) : c = d :=
  Char.ext (UInt32.ext h)

theorem utf8EncodeChar_head (c : Char) :
    ∃ b t, utf8EncodeChar c = b :: t ∧ (b < 128 ∨ 192 ≤ b) := by
  by_cases h1 : c.toNat < 128
  · exact ⟨c.toNat, [], by simp [utf8EncodeChar, h1], Or.inl h1⟩
  · by_cases h2 : c.toNat < 2048
    · refine ⟨192 + c.toNat / 64, [128 + c.toNat % 64], ?_, Or.inr (by omega)⟩
      simp [utf8EncodeChar, h1, h2]
    · by_cases h3 : c.toNat < 65536
      · refine ⟨224 + c.toNat / 4096, [128 + (c.toNat / 64) % 64, 128 + c.toNat % 64], ?_,
          Or.inr (by omega)⟩
        simp [utf8EncodeChar, h1, h2, h3]
      · refine ⟨240 + c.toNat / 262144,
          [128 + (c.toNat / 4096) % 64, 128 + (c.toNat / 64) % 64, 128 + c.toNat % 64], ?_,
          Or.inr (by omega)⟩
        simp [utf8EncodeChar, h1, h2, h3]

theorem utf8EncodeChar_tail (c : Char) (b : Nat) (hb : b ∈ (utf8EncodeChar c).tail) :
    128 ≤ b ∧ b < 192 := by
  by_cases h1 : c.toNat < 128
  · simp [utf8EncodeChar, h1] at hb
  · by_cases h2 : c.toNat < 2048
    · simp [utf8EncodeChar, h1, h2] at hb
      omega
    · by_cases h3 : c.toNat < 65536
      · simp [utf8EncodeChar, h1, h2, h3] at hb
        rcases hb with hb | hb <;> omega
      · simp [utf8EncodeChar, h1, h2, h3] at hb
        rcases hb with hb | hb | hb <;> omega

theorem utf8DecodeHead_encode (c : Char) (X : List Nat) :
    utf8DecodeHead (utf8EncodeChar c ++ X) = some (c.toNat, X) := by
  by_cases h1 : c.toNat < 128
  · simp only [utf8EncodeChar, if_pos h1, List.cons_append, List.nil_append]
    simp only [utf8DecodeHead, if_pos h1]
  · by_cases h2 : c.toNat < 2048
    · simp only [utf8EncodeChar, if_neg h1, if_pos h2, List.cons_append, List.nil_append]
      simp only [utf8DecodeHead]
      rw [if_neg (by omega), if_pos (by omega)]
      have he : (192 + c.toNat / 64 - 192) * 64 + (128 + c.toNat % 64 - 128) = c.toNat := by
        omega
      rw [he]
    · by_cases h3 : c.toNat < 65536
      · simp only [utf8EncodeChar, if_neg h1, if_neg h2, if_pos h3, List.cons_append,
          List.nil_append]
        simp only [utf8DecodeHead]
        rw [if_neg (by omega), if_neg (by omega), if_pos (by omega)]
        have he : (224 + c.toNat / 4096 - 224) * 4096 + (128 + (c.toNat / 64) % 64 - 128) * 64 +
            (128 + c.toNat % 64 - 128) = c.toNat := by
          omega
        rw [he]
      · have h4 : c.toNat < 1114112 := char_toNat_lt c
        simp only [utf8EncodeChar, if_neg h1, if_neg h2, if_neg h3, List.cons_append,
          List.nil_append]
        simp only [utf8DecodeHead]
        rw [if_neg (by omega), if_neg (by omega), if_neg (by omega)]
        have he : (240 + c.toNat / 262144 - 240) * 262144 +
            (128 + (c.toNat / 4096) % 64 - 128) * 4096 +
            (128 + (c.toNat / 64) % 64 - 128) * 64 + (128 + c.toNat % 64 - 128) = c.toNat := by
          omega
        rw [he]

theorem utf8EncodeChar_inj_append (c d : Char) (X Y : List Nat)
    (h : utf8EncodeChar c ++ X = utf8EncodeChar d ++ Y) : c = d ∧ X = Y := by
  have h1 := congrArg utf8DecodeHead h
  rw [utf8DecodeHead_encode c X, utf8DecodeHead_encode d Y] at h1
  injection h1 with h2
  have h3 : c.toNat = d.toNat := congrArg Prod.fst h2
  have h4 : X = Y := congrArg Prod.snd h2
  exact ⟨char_toNat_inj h3, h4⟩

theorem encodeStr_append (X Y : List Char) :
    encodeStr (X ++ Y) = encodeStr X ++ encodeStr Y := by
  induction X with
  | nil => rfl
  | cons c X' ih => simp only [List.cons_append, encodeStr, List.append_eq, ih, List.append_assoc]

/-- A lead byte inside the encoding of a string sits on a character
boundary: the bytes before it are the encoding of a prefix of the string. -/
theorem encodeStr_lead_boundary :
    ∀ (K : List Char) (l1 : List Nat) (b : Nat) (l2 : List Nat),
      (b < 128 ∨ 192 ≤ b) → encodeStr K = l1 ++ b :: l2 →
      ∃ K1 K2, K = K1 ++ K2 ∧ encodeStr K1 = l1 := by
  intro K
  induction K with
  | nil =>
    intro l1 b l2 _ h
    exact absurd h (by simp [encodeStr])
  | cons c K' ih =>
    intro l1 b l2 hlead h
    simp only [encodeStr] at h
    rcases List.append_eq_append_iff.mp h with ⟨a', ha1, ha2⟩ | ⟨c', hc1, hc2⟩
    · obtain ⟨K1', K2, hK, he⟩ := ih a' b l2 hlead ha2
      refine ⟨c :: K1', K2, by rw [hK]; rfl, ?_⟩
      simp only [encodeStr, he, ha1]
    · cases c' with
      | nil =>
        refine ⟨[c], K', rfl, ?_⟩
        simp only [encodeStr, List.append_nil]
        rw [hc1]
        simp
      | cons b' c'' =>
        injection hc2 with hb hl2
        cases l1 with
        | nil => exact ⟨[], c :: K', rfl, rfl⟩
        | cons x l1' =>
          exfalso
          have hmem : b ∈ (utf8EncodeChar c).tail := by
            rw [hc1]
            simp only [List.cons_append, List.tail_cons]
            subst hb
            simp
          have := utf8EncodeChar_tail c b hmem
          rcases hlead with hl | hl <;> omega

/-- UTF-8 is prefix-determined: if the encoding of `A` is a prefix of the
encoding of `K2`, then `A` is a prefix of `K2` and the remainder is the
encoding of the rest. -/
theorem encodeStr_prefix_det :
    ∀ (A K2 : List Char) (r : List Nat),
      encodeStr A ++ r = encodeStr K2 → ∃ K3, K2 = A ++ K3 ∧ r = encodeStr K3 := by
  intro A
  induction A with
  | nil =>
    intro K2 r h
    exact ⟨K2, rfl, by simpa [encodeStr] using h⟩
  | cons c A' ih =>
    intro K2 r h
    cases K2 with
    | nil =>
      exfalso
      simp only [encodeStr] at h
      have hlen := congrArg List.length h
      obtain ⟨b, t, he, _⟩ := utf8EncodeChar_head c
      rw [he] at hlen
      simp at hlen
    | cons d K2' =>
      simp only [encodeStr] at h
      rw [List.append_assoc] at h
      obtain ⟨hcd, hrest⟩ := utf8EncodeChar_inj_append c d _ _ h
      subst hcd
      obtain ⟨K3, hK, hr⟩ := ih K2' r hrest
      exact ⟨K3, by rw [hK]; rfl, hr⟩

theorem findSub_nil_needle {α : Type} [DecidableEq α] (key : List α) :
    findSub key ([] : List α) = some 0 := by
  cases key with
  | nil => simp [findSub, startsWith]
  | cons x t => simp [findSub, startsWith]

/-- Claim C10: on the UTF-8 byte level, whenever the search inside
`ordered_match` succeeds at byte index `pos`, the slice point
`pos + a.len()` is within bounds and on a character boundary, and the
remaining suffix is itself the encoding of a string — so the slice
`key[pos + a.len()..]` taken by `ordered_match` never panics. -/
theorem claim_C10 (K A : List Char) (pos : Nat)
    (h : findSub (encodeStr K) (encodeStr A) = some pos) :
    pos + (encodeStr A).length ≤ (encodeStr K).length ∧
    ∃ K1 K2 : List Char, K = K1 ++ K2 ∧
      (encodeStr K1).length = pos + (encodeStr A).length ∧
      (encodeStr K).drop (pos + (encodeStr A).length) = encodeStr K2 := by
  obtain ⟨p, s, hk, hl⟩ := findSub_decomp (encodeStr K) (encodeStr A) pos h
  have hlen : pos + (encodeStr A).length ≤ (encodeStr K).length := by
    rw [hk]
    simp only [List.length_append]
    omega
  refine ⟨hlen, ?_⟩
  cases A with
  | nil =>
    have hpos : pos = 0 := by
      simp only [encodeStr] at h
      rw [findSub_nil_needle (encodeStr K)] at h
      injection h with h'
      exact h'.symm
    subst hpos
    exact ⟨[], K, by simp, by simp [encodeStr], by simp [encodeStr]⟩
  | cons c A' =>
    obtain ⟨b, t, he, hlead⟩ := utf8EncodeChar_head c
    have hk' : encodeStr K = p ++ b :: (t ++ (encodeStr A' ++ s)) := by
      rw [hk]
      simp only [encodeStr, he]
      simp [List.append_assoc]
    obtain ⟨K1, K2, hK12, henc1⟩ :=
      encodeStr_lead_boundary K p b (t ++ (encodeStr A' ++ s)) hlead hk'
    have hcanc : encodeStr (c :: A') ++ s = encodeStr K2 := by
      have h2 : encodeStr K = encodeStr K1 ++ encodeStr K2 := by
        rw [hK12, encodeStr_append]
      rw [hk, henc1] at h2
      exact List.append_cancel_left h2
    obtain ⟨K3, hK23, hs⟩ := encodeStr_prefix_det (c :: A') K2 s hcanc
    refine ⟨K1 ++ (c :: A'), K3, ?_, ?_, ?_⟩
    · rw [hK12, hK23]
      simp [List.append_assoc]
    · rw [encodeStr_append, List.length_append, henc1, hl]
    · rw [hk]
      have hplen : pos + (encodeStr (c :: A')).length = (p ++ encodeStr (c :: A')).length := by
        simp only [List.length_append]
        omega
      rw [← List.append_assoc, hplen, List.drop_left, hs]

theorem claim_C10_witness :
    1 + (encodeStr ['b']).length ≤ (encodeStr ['a', 'b']).length ∧
    ∃ K1 K2 : List Char, ['a', 'b'] = K1 ++ K2 ∧
      (encodeStr K1).length = 1 + (encodeStr ['b']).length ∧
      (encodeStr ['a', 'b']).drop (1 + (encodeStr ['b']).length) = encodeStr K2 :=
  claim_C10 ['a', 'b'] ['b'] 1 (by decide)

